import Mathlib

/-!
Verification of the numpyro repository's natural-language specification
against its source.  Each section embeds one piece of the Python source
as executable Lean definitions (real/rational arithmetic in place of
floating point, `Except` for raised exceptions, `Option` for IEEE
minus-infinity in log space) and proves or refutes the corresponding
spec claims.
-/

namespace NumpyroSpec

/-! ### AutoDAIS constructor validation

Embedding of `AutoDAIS.__init__` (src/numpyro/infer/autoguide.py,
lines 736-770).  The constructor performs six validation checks in
order and raises `ValueError` with a fixed message at the first failed
check; on success it just stores the hyperparameters.  Numeric
hyperparameters are modelled as rationals, `K` as an integer and
`base_dist` as a string. -/

def autoDAISInit (K : ℤ) (base_dist : String) (eta_init eta_max gamma_init init_scale : ℚ) :
    Except String Unit :=
  if K < 1 then .error "K must satisfy K >= 1"
  else if ¬(base_dist = "diagonal" ∨ base_dist = "cholesky") then
    .error "base_dist must be one of diagonal or cholesky."
  else if eta_init ≤ 0 ∨ eta_init ≥ eta_max then
    .error "eta_init must be positive and satisfy eta_init < eta_max."
  else if eta_max ≤ 0 then .error "eta_max must be positive."
  else if gamma_init ≤ 0 ∨ gamma_init ≥ 1 then
    .error "gamma_init must be in the open interval (0, 1)."
  else if init_scale ≤ 0 then .error "init_scale must be positive."
  else .ok ()

/-- C5: `AutoDAIS` construction raises a `ValueError` if and only if one of
the hyperparameter constraints is violated; equivalently, it succeeds exactly
when `K >= 1`, `base_dist` is `"diagonal"` or `"cholesky"`,
`0 < eta_init < eta_max`, `0 < gamma_init < 1` and `init_scale > 0`. -/
theorem autoDAISInit_ok_iff (K : ℤ) (base_dist : String)
    (eta_init eta_max gamma_init init_scale : ℚ) :
    autoDAISInit K base_dist eta_init eta_max gamma_init init_scale = .ok () ↔
      (1 ≤ K ∧ (base_dist = "diagonal" ∨ base_dist = "cholesky") ∧
        0 < eta_init ∧ eta_init < eta_max ∧ 0 < gamma_init ∧ gamma_init < 1 ∧
        0 < init_scale) := by
  unfold autoDAISInit
  split_ifs with h1 h2 h3 h4 h5 h6
  · exact iff_of_false not_false fun h => absurd h.1 (by omega)
  · refine iff_of_false not_false fun h => ?_
    rcases h3 with h3 | h3
    · exact absurd h.2.2.1 (not_lt.mpr h3)
    · exact absurd h.2.2.2.1 (not_lt.mpr h3)
  · exact iff_of_false not_false fun h =>
      absurd h4 (not_le.mpr (h.2.2.1.trans h.2.2.2.1))
  · refine iff_of_false not_false fun h => ?_
    rcases h5 with h5 | h5
    · exact absurd h.2.2.2.2.1 (not_lt.mpr h5)
    · exact absurd h.2.2.2.2.2.1 (not_lt.mpr h5)
  · exact iff_of_false not_false fun h => absurd h.2.2.2.2.2.2 (not_lt.mpr h6)
  · push_neg at h3 h5
    exact iff_of_true rfl ⟨by omega, h2, h3.1, h3.2, h5.1, h5.2, not_le.mp h6⟩
  · exact iff_of_false not_false fun h => h2 h.2.1

/-- C10: the `eta_max must be positive.` branch of `AutoDAIS.__init__` is
unreachable: no hyperparameter combination makes the constructor return that
error, because whenever `eta_max <= 0` one of the two earlier `eta_init`
checks already fires. -/
theorem autoDAISInit_eta_max_branch_unreachable (K : ℤ) (base_dist : String)
    (eta_init eta_max gamma_init init_scale : ℚ) :
    autoDAISInit K base_dist eta_init eta_max gamma_init init_scale ≠
      .error "eta_max must be positive." := by
  unfold autoDAISInit
  split_ifs with h1 h2 h3 h4 h5 h6 <;> simp_all
  exact absurd h4 (not_le.mpr (h3.1.trans h3.2))

/-! ### AutoDAIS annealing schedule

Embedding of the `betas` computation in `AutoDAIS._sample_latent`
(src/numpyro/infer/autoguide.py, lines 806-812):
`betas = jnp.cumsum(beta_increments); betas = betas / betas[-1]`.
The length-`K` increment vector is modelled as a function on indices
`0, ..., K-1`; `daisCumsum b i` is the inclusive cumulative sum
`jnp.cumsum(b)[i]` and `daisBetas K b i` the normalized schedule. -/

def daisCumsum (b : ℕ → ℚ) (i : ℕ) : ℚ := ∑ j in Finset.range (i + 1), b j

def daisBetas (K : ℕ) (b : ℕ → ℚ) (i : ℕ) : ℚ := daisCumsum b i / daisCumsum b (K - 1)

theorem daisCumsum_pos (K : ℕ) (b : ℕ → ℚ) (hb : ∀ i, i < K → 0 < b i)
    (i : ℕ) (hi : i < K) : 0 < daisCumsum b i := by
  refine Finset.sum_pos (fun j hj => ?_) ⟨0, Finset.mem_range.mpr (Nat.succ_pos i)⟩
  exact hb j (lt_of_lt_of_le (Finset.mem_range.mp hj) hi)

theorem daisCumsum_strictMono (K : ℕ) (b : ℕ → ℚ) (hb : ∀ i, i < K → 0 < b i)
    (i j : ℕ) (hij : i < j) (hj : j < K) : daisCumsum b i < daisCumsum b j := by
  refine Finset.sum_lt_sum_of_subset ?_ (Finset.mem_range.mpr (Nat.lt_succ_self j)) ?_ ?_ ?_
  · exact Finset.range_subset.mpr (by omega)
  · exact fun h => absurd (Finset.mem_range.mp h) (by omega)
  · exact hb j hj
  · intro k hk _
    have hk' : k < j + 1 := Finset.mem_range.mp hk
    exact le_of_lt (hb k (by omega))

/-- C6: in `AutoDAIS._sample_latent`, for every strictly positive length-`K`
increment vector the normalized cumulative sums `daisBetas` form a strictly
increasing sequence of positive values whose final entry equals `1`. -/
theorem daisBetas_schedule (K : ℕ) (b : ℕ → ℚ) (hK : 1 ≤ K)
    (hb : ∀ i, i < K → 0 < b i) :
    (∀ i, i < K → 0 < daisBetas K b i) ∧
      (∀ j, j < K → ∀ i, i < j → daisBetas K b i < daisBetas K b j) ∧
      daisBetas K b (K - 1) = 1 := by
  have hlast : 0 < daisCumsum b (K - 1) := daisCumsum_pos K b hb (K - 1) (by omega)
  refine ⟨fun i hi => div_pos (daisCumsum_pos K b hb i hi) hlast, fun j hj i hij => ?_, ?_⟩
  · exact (div_lt_div_iff_of_pos_right hlast).mpr (daisCumsum_strictMono K b hb i j hij hj)
  · exact div_self (ne_of_gt hlast)

/-- C6 witness: the schedule property evaluated at `K = 2` with unit
increments. -/
theorem daisBetas_schedule_witness :
    (1 ≤ 2 ∧ ∀ i, i < 2 → (0:ℚ) < (fun _ => (1:ℚ)) i) ∧
      ((∀ i, i < 2 → 0 < daisBetas 2 (fun _ => (1:ℚ)) i) ∧
        (∀ j, j < 2 → ∀ i, i < j →
          daisBetas 2 (fun _ => (1:ℚ)) i < daisBetas 2 (fun _ => (1:ℚ)) j) ∧
        daisBetas 2 (fun _ => (1:ℚ)) (2 - 1) = 1) :=
  ⟨⟨by omega, fun _ _ => one_pos⟩,
    daisBetas_schedule 2 (fun _ => (1:ℚ)) (by omega) (fun _ _ => one_pos)⟩

/-! ### Legacy Uniform distribution

Embedding of `Uniform.log_prob` from
src/numpyro/contrib/distributions/continuous.py (lines 136-141):
`log(float(low <= value < high)) - log(high - low)`.  The value of the
computation lives in the reals extended with minus infinity, modelled by
`EReal`; `npLog` is numpy's `log` on nonnegative floats, with
`log 0 = -inf`. -/

noncomputable def npLog (x : ℝ) : EReal := if x ≤ 0 then ⊥ else ((Real.log x : ℝ) : EReal)

noncomputable def uniformLogProb (low high value : ℝ) : EReal :=
  npLog (if low ≤ value ∧ value < high then 1 else 0) - npLog (high - low)

/-- C8: for `low < high`, the legacy `Uniform(low, high).log_prob(x)` equals
`-log(high - low)` on the half-open interval `low <= x < high` and is minus
infinity outside it; in particular it is minus infinity at `x = high`. -/
theorem uniformLogProb_eq (low high value : ℝ) (h : low < high) :
    uniformLogProb low high value =
      (if low ≤ value ∧ value < high then (((-Real.log (high - low)) : ℝ) : EReal)
        else ⊥) ∧
      uniformLogProb low high high = ⊥ := by
  have hd : npLog (high - low) = ((Real.log (high - low) : ℝ) : EReal) := by
    rw [npLog, if_neg (not_le.mpr (by linarith))]
  constructor
  · rw [uniformLogProb, hd]
    by_cases hin : low ≤ value ∧ value < high
    · rw [if_pos hin, if_pos hin, npLog, if_neg (by norm_num), Real.log_one,
        ← EReal.coe_sub]
      norm_num
    · rw [if_neg hin, if_neg hin, npLog, if_pos le_rfl, EReal.bot_sub]
  · rw [uniformLogProb, if_neg (fun hc => absurd hc.2 (lt_irrefl high)), hd,
      npLog, if_pos le_rfl, EReal.bot_sub]

/-- C8 witness: the characterization evaluated at `low = 0`, `high = 2`,
`value = 1`. -/
theorem uniformLogProb_eq_witness :
    (0:ℝ) < 2 ∧
      (uniformLogProb 0 2 1 =
        (if (0:ℝ) ≤ 1 ∧ (1:ℝ) < 2 then (((-Real.log (2 - 0)) : ℝ) : EReal) else ⊥) ∧
        uniformLogProb 0 2 2 = ⊥) :=
  ⟨by norm_num, uniformLogProb_eq 0 2 1 (by norm_num)⟩

/-! ### The pure-Python `scan` fallback

Embedding of `util.scan` (src/numpyro/util.py, lines 102-111).  The
compiled path is `lax.scan`, which threads the carry through `f`: in
the JAX generation this snapshot targets (see the `_tscan` docstring,
which describes `lax.scan` as stacking every field of the carry) `f`
maps a carry and one input element to the next carry, and scan returns
the stacked sequence of carries.  `laxScan` embeds that.  The fallback
path executed inside `control_flow_prims_disabled()` runs
`for b in bs: as_.append(f(a, b))` with `a` never rebound, so it
applies `f` to the ORIGINAL initial carry at every step; `scanFallback`
embeds that loop (the final `tree_unflatten` merely repackages the
accumulated list).  Carries and inputs are modelled as integers. -/

def laxScan (f : ℤ → ℤ → ℤ) (a : ℤ) : List ℤ → List ℤ
  | [] => []
  | b :: bs => f a b :: laxScan f (f a b) bs

def scanFallback (f : ℤ → ℤ → ℤ) (a : ℤ) (bs : List ℤ) : List ℤ :=
  bs.map (f a)

/-- C9: the pure-Python fallback of `util.scan` disagrees with the compiled
`lax.scan` path: with `f (c, b) = c + b`, initial carry `0` and inputs
`[1, 2]`, the fallback returns `[1, 2]` (it applies `f` to the initial carry
at every step) while threading the carry yields the carries `[1, 3]`. -/
theorem scanFallback_ne_laxScan :
    scanFallback (· + ·) 0 [1, 2] = [1, 2] ∧
      laxScan (· + ·) 0 [1, 2] = [1, 3] ∧
      scanFallback (· + ·) 0 [1, 2] ≠ laxScan (· + ·) 0 [1, 2] := by
  refine ⟨by decide, by decide, by decide⟩

/-! ### StickBreakingTransform

Embedding of `StickBreakingTransform` from
src/numpyro/distributions/transforms.py (lines 135-163).  The transform
maps an unconstrained vector of length `n = K - 1` to the open
`K`-simplex.  Vectors are modelled as functions on indices; only
indices below the relevant length matter.  Following `__call__`:
the input is shifted by `log(n - i)` (`x - np.log(x.shape[-1] -
np.arange(x.shape[-1]))`), passed through the logistic sigmoid
(`expit`), and the simplex point is `z_padded * z1m_cumprod_shifted`
where `z_padded` appends a trailing 1 to `z` and `z1m_cumprod_shifted`
prepends a leading 1 to `cumprod(1 - z)`.  Following `inv`: the ratio
`y_i / (1 - cumsum(y)_i)` is passed through `log` and the shift is
added back. -/

noncomputable def sigmoid (t : ℝ) : ℝ := 1 / (1 + Real.exp (-t))

noncomputable def sbZ (n : ℕ) (x : ℕ → ℝ) (i : ℕ) : ℝ :=
  sigmoid (x i - Real.log ((n : ℝ) - (i : ℝ)))

noncomputable def sbCumprodShifted (n : ℕ) (x : ℕ → ℝ) (i : ℕ) : ℝ :=
  ∏ j in Finset.range i, (1 - sbZ n x j)

noncomputable def sbForward (n : ℕ) (x : ℕ → ℝ) (i : ℕ) : ℝ :=
  (if i < n then sbZ n x i else 1) * sbCumprodShifted n x i

noncomputable def sbInverse (n : ℕ) (y : ℕ → ℝ) (i : ℕ) : ℝ :=
  Real.log (y i / (1 - ∑ j in Finset.range (i + 1), y j)) +
    Real.log ((n : ℝ) - (i : ℝ))

theorem sigmoid_pos (t : ℝ) : 0 < sigmoid t := by
  unfold sigmoid
  positivity

theorem sigmoid_lt_one (t : ℝ) : sigmoid t < 1 := by
  unfold sigmoid
  rw [div_lt_one (by positivity)]
  linarith [Real.exp_pos (-t)]

theorem sigmoid_ratio (t : ℝ) : sigmoid t / (1 - sigmoid t) = Real.exp t := by
  have h1 : (0:ℝ) < 1 + Real.exp (-t) := by positivity
  have h2 : 1 - sigmoid t = Real.exp (-t) / (1 + Real.exp (-t)) := by
    unfold sigmoid
    field_simp
  rw [h2]
  unfold sigmoid
  rw [div_div_div_cancel_right₀]
  · rw [one_div, ← Real.exp_neg, neg_neg]
  · exact h1.ne'

theorem stick_sum_eq (f : ℕ → ℝ) (m : ℕ) :
    ∑ j in Finset.range m, f j * ∏ k in Finset.range j, (1 - f k) =
      1 - ∏ k in Finset.range m, (1 - f k) := by
  induction m with
  | zero => simp
  | succ m ih => rw [Finset.sum_range_succ, ih, Finset.prod_range_succ]; ring

/-- C1: for every `K >= 2` and every real input vector of length `K - 1`,
`StickBreakingTransform.inv` is an exact left inverse of the forward map
under exact real arithmetic: every coordinate of the input is recovered. -/
theorem stickBreaking_roundtrip (K : ℕ) (hK : 2 ≤ K) (x : ℕ → ℝ) (i : ℕ)
    (hi : i < K - 1) :
    sbInverse (K - 1) (sbForward (K - 1) x) i = x i := by
  set n := K - 1 with hn
  have hi' : i < n := hi
  have hz1 : ∀ k, sbZ n x k < 1 := fun k => sigmoid_lt_one _
  have hz0 : ∀ k, 0 < sbZ n x k := fun k => sigmoid_pos _
  have hsum : ∑ j in Finset.range (i + 1), sbForward n x j =
      1 - ∏ k in Finset.range (i + 1), (1 - sbZ n x k) := by
    rw [← stick_sum_eq (sbZ n x) (i + 1)]
    refine Finset.sum_congr rfl fun j hj => ?_
    have hj' : j < n := by
      have := Finset.mem_range.mp hj
      omega
    rw [sbForward, if_pos hj', sbCumprodShifted]
  have hP : (0:ℝ) < ∏ k in Finset.range i, (1 - sbZ n x k) :=
    Finset.prod_pos fun k _ => by linarith [hz1 k]
  rw [sbInverse, hsum]
  have h1 : (1:ℝ) - (1 - ∏ k in Finset.range (i + 1), (1 - sbZ n x k)) =
      ∏ k in Finset.range (i + 1), (1 - sbZ n x k) := by ring
  rw [h1, Finset.prod_range_succ, sbForward, if_pos hi', sbCumprodShifted,
    mul_comm (∏ k in Finset.range i, (1 - sbZ n x k)) (1 - sbZ n x i),
    mul_div_mul_right _ _ hP.ne', sbZ, sigmoid_ratio, Real.log_exp]
  ring

/-- C1 witness: the round trip evaluated at `K = 2`, the zero input vector
and coordinate `0`. -/
theorem stickBreaking_roundtrip_witness :
    2 ≤ 2 ∧ 0 < 2 - 1 ∧
      sbInverse (2 - 1) (sbForward (2 - 1) (fun _ => 0)) 0 = (fun _ => (0:ℝ)) 0 :=
  ⟨by norm_num, by norm_num,
    stickBreaking_roundtrip 2 (by norm_num) (fun _ => 0) 0 (by norm_num)⟩

/-! ### Batched rejection sampler normalizing constant

Embedding of the `log_Z` computation in `_rs_impl`
(src/numpyro/infer/autoguide.py, lines 2388-2427).  Each round of the
while loop draws one proposal per parallel slot `j < S` and updates the
per-slot accumulator `log_a_sum` by
`logsumexp(stack([log_a_sum, accept_log_prob]))`, starting from `-inf`;
after `r` rounds the code returns
`log_Z = logsumexp(log_a_sum) - log(num_samples * S)` where
`num_samples = r`.  Minus infinity in log space is modelled by
`Option ℝ` with `none = -inf`: `rsLogaddexp` is `logaddexp` with the
IEEE `-inf` absorption, and `rsExpVal` is `exp` with `exp(-inf) = 0`.
The accept log-probability of round `i`, slot `j` is an arbitrary real
`a i j` (the sampler's draws are inputs of the embedding). -/

noncomputable def rsLogaddexp : Option ℝ → ℝ → ℝ
  | none, v => v
  | some u, v => Real.log (Real.exp u + Real.exp v)

noncomputable def rsLogASum (a : ℕ → ℕ → ℝ) : ℕ → ℕ → Option ℝ
  | 0, _ => none
  | r + 1, j => some (rsLogaddexp (rsLogASum a r j) (a r j))

noncomputable def rsExpVal : Option ℝ → ℝ
  | none => 0
  | some v => Real.exp v

noncomputable def rsLogZ (a : ℕ → ℕ → ℝ) (r S : ℕ) : ℝ :=
  Real.log (∑ j in Finset.range S, rsExpVal (rsLogASum a r j)) -
    Real.log ((r : ℝ) * (S : ℝ))

theorem rsExpVal_logASum (a : ℕ → ℕ → ℝ) (j : ℕ) :
    ∀ r, rsExpVal (rsLogASum a r j) = ∑ i in Finset.range r, Real.exp (a i j) := by
  intro r
  induction r with
  | zero => simp [rsLogASum, rsExpVal]
  | succ r ih =>
    rcases r with _ | m
    · simp [rsLogASum, rsLogaddexp, rsExpVal]
    · rw [rsLogASum, rsExpVal]
      have hsome : rsLogASum a (m + 1) j =
          some (rsLogaddexp (rsLogASum a m j) (a m j)) := rfl
      rw [hsome, rsLogaddexp, Real.exp_log (by positivity), Finset.sum_range_succ,
        ← ih, hsome, rsExpVal]

/-- C7: the batched rejection sampler's estimate `log_Z` equals the
logsumexp of the accept log-probabilities of every proposal drawn across all
`r` completed rounds and all `S` slots, minus `log(r * S)`, the log of the
total number of proposals drawn. -/
theorem rsLogZ_eq (a : ℕ → ℕ → ℝ) (r S : ℕ) (hr : 1 ≤ r) (hS : 1 ≤ S) :
    rsLogZ a r S =
      Real.log (∑ i in Finset.range r, ∑ j in Finset.range S, Real.exp (a i j)) -
        Real.log ((r : ℝ) * (S : ℝ)) := by
  rw [rsLogZ, Finset.sum_congr rfl fun j _ => rsExpVal_logASum a j r,
    Finset.sum_comm]

/-- C7 witness: the identity evaluated at one round, one slot and zero accept
log-probabilities. -/
theorem rsLogZ_eq_witness :
    1 ≤ 1 ∧
      rsLogZ (fun _ _ => 0) 1 1 =
        Real.log (∑ i in Finset.range 1, ∑ j in Finset.range 1, Real.exp 0) -
          Real.log (((1:ℕ) : ℝ) * ((1:ℕ) : ℝ)) :=
  ⟨le_refl 1, rsLogZ_eq (fun _ _ => 0) 1 1 (le_refl 1) (le_refl 1)⟩

/-! ### Guide packing convention

Embedding of `_ravel_dict` and `_unravel_dict`
(src/numpyro/infer/autoguide.py, lines 494-519).  A numpy array is a
shape together with its row-major flattened data (`NdArr`); a dict of
arrays is an association list in insertion order, whose keys are
distinct.  `ravelDict` concatenates each entry's flattened data and
records each entry's shape (`jnp.reshape(value, -1)` /
`jnp.concatenate`).  `unravelGo` is the slicing loop of
`_unravel_dict`: for each recorded shape it takes
`x_flat[curr_pos:next_pos]` with `next_pos = curr_pos + prod(shape)`
and reshapes it; `unravelDict` then performs the final
`assert next_pos == x_flat.shape[0]`, modelled by returning `none` when
the assertion fails. -/

structure NdArr where
  shape : List ℕ
  data : List ℚ
deriving DecidableEq, Repr

def ravelDict (x : List (String × NdArr)) : List ℚ × List (String × List ℕ) :=
  ((x.map fun nv => nv.2.data).flatten, x.map fun nv => (nv.1, nv.2.shape))

def unravelGo (x_flat : List ℚ) :
    List (String × List ℕ) → ℕ → List (String × NdArr) × ℕ
  | [], curr_pos => ([], curr_pos)
  | (name, shape) :: rest, curr_pos =>
    let next_pos := curr_pos + shape.prod
    let piece := (x_flat.drop curr_pos).take shape.prod
    let out := unravelGo x_flat rest next_pos
    ((name, ⟨shape, piece⟩) :: out.1, out.2)

def unravelDict (x_flat : List ℚ) (shape_dict : List (String × List ℕ)) :
    Option (List (String × NdArr)) :=
  let out := unravelGo x_flat shape_dict 0
  if out.2 = x_flat.length then some out.1 else none

theorem unravelGo_final (x_flat : List ℚ) (sd : List (String × List ℕ)) :
    ∀ c, (unravelGo x_flat sd c).2 = c + (sd.map fun ns => ns.2.prod).sum := by
  induction sd with
  | nil => simp [unravelGo]
  | cons p rest ih =>
    intro c
    rw [show p = (p.1, p.2) from rfl, unravelGo]
    simp only [ih, List.map_cons, List.sum_cons]
    omega

theorem unravelGo_ravel (x : List (String × NdArr))
    (hwf : ∀ p ∈ x, p.2.data.length = p.2.shape.prod) :
    ∀ pre : List ℚ,
      unravelGo (pre ++ (x.map fun nv => nv.2.data).flatten)
        (x.map fun nv => (nv.1, nv.2.shape)) pre.length =
        (x, pre.length + ((x.map fun nv => nv.2.data).flatten).length) := by
  induction x with
  | nil => simp [unravelGo]
  | cons p rest ih =>
    intro pre
    have hp : p.2.data.length = p.2.shape.prod := hwf p (List.mem_cons_self p rest)
    have hrest : ∀ q ∈ rest, q.2.data.length = q.2.shape.prod :=
      fun q hq => hwf q (List.mem_cons_of_mem p hq)
    simp only [List.map_cons, List.flatten_cons]
    rw [unravelGo]
    have hflat : pre ++ (p.2.data ++ (rest.map fun nv => nv.2.data).flatten) =
        (pre ++ p.2.data) ++ (rest.map fun nv => nv.2.data).flatten :=
      (List.append_assoc pre p.2.data _).symm
    have hdrop : ((pre ++ (p.2.data ++ (rest.map fun nv => nv.2.data).flatten)).drop
        pre.length).take p.2.shape.prod = p.2.data := by
      rw [List.drop_left, ← hp, List.take_left]
    have hnext : pre.length + p.2.shape.prod = (pre ++ p.2.data).length := by
      rw [List.length_append, hp]
    rw [hdrop, hnext, hflat, ih hrest (pre ++ p.2.data)]
    refine Prod.ext (by simp) ?_
    simp only [List.length_append]
    omega

/-- C2: the guide's packing pair is an exact inverse — `_unravel_dict`
applied to the flat vector and shape dictionary produced by `_ravel_dict(x)`
passes its final-offset assertion and returns `x` itself; moreover the
assertion holds for any flat vector whose length equals the sum of the
element counts recorded in the shape dictionary. -/
theorem unravelDict_ravelDict (x : List (String × NdArr)) (flat : List ℚ)
    (sd : List (String × List ℕ)) (hnd : (x.map Prod.fst).Nodup)
    (hwf : ∀ p ∈ x, p.2.data.length = p.2.shape.prod)
    (hlen : flat.length = (sd.map fun ns => ns.2.prod).sum) :
    unravelDict (ravelDict x).1 (ravelDict x).2 = some x ∧
      (unravelDict flat sd).isSome := by
  constructor
  · have h := unravelGo_ravel x hwf []
    simp only [List.nil_append, List.length_nil] at h
    rw [unravelDict, ravelDict]
    simp only [h]
    simp
  · rw [unravelDict]
    simp only [unravelGo_final flat sd 0, Nat.zero_add, ← hlen]
    simp

/-- C2 witness: the round trip and the assertion evaluated on a concrete
two-entry dict and a concrete flat vector. -/
theorem unravelDict_ravelDict_witness :
    ((([("a", NdArr.mk [2] [1, 2]), ("b", NdArr.mk [] [3])].map Prod.fst).Nodup) ∧
      ((5:ℚ) = 5) ∧ ([(5:ℚ), 6].length = ([("c", [2])].map
        fun ns => ns.2.prod).sum)) ∧
      (unravelDict (ravelDict [("a", NdArr.mk [2] [1, 2]), ("b", NdArr.mk [] [3])]).1
          (ravelDict [("a", NdArr.mk [2] [1, 2]), ("b", NdArr.mk [] [3])]).2 =
        some [("a", NdArr.mk [2] [1, 2]), ("b", NdArr.mk [] [3])] ∧
        (unravelDict [(5:ℚ), 6] [("c", [2])]).isSome) :=
  ⟨⟨by decide, rfl, by decide⟩,
    unravelDict_ravelDict [("a", NdArr.mk [2] [1, 2]), ("b", NdArr.mk [] [3])]
      [(5:ℚ), 6] [("c", [2])] (by decide) (by decide) (by decide)⟩

/-! ### ComposeTransform log-Jacobian accumulation

Embedding of `_sum_rightmost` and `ComposeTransform.log_abs_det_jacobian`
(src/numpyro/distributions/transforms.py, lines 24-25 and 54-63).
Arrays of rank at most two with integer entries suffice to settle the
claim; `Arr` models a dynamically ranked ndarray, `npSumLast` is
`np.sum(x, axis=-1)`, and `arrAdd` is broadcast addition.  A `Part`
models a `Transform` instance by the three members the composition
reads: `event_dim`, forward `__call__` and `log_abs_det_jacobian`.
`composeLadjGo` is the accumulation loop of the source: every part but
the last contributes `_sum_rightmost(part.log_abs_det_jacobian(x, y_tmp),
self.event_dim - part.event_dim)` with `x` advanced to `y_tmp = part(x)`,
and the last part contributes against the supplied `y`.  Note that
`_sum_rightmost(x, dim)` sums one trailing axis when `dim == 1` and
returns `x` unchanged for every other `dim`, including `dim >= 2`. -/

inductive Arr where
  | r0 (v : ℤ)
  | r1 (xs : List ℤ)
  | r2 (xss : List (List ℤ))
deriving DecidableEq, Repr

def npSumLast : Arr → Arr
  | .r0 v => .r0 v
  | .r1 xs => .r0 xs.sum
  | .r2 xss => .r1 (xss.map List.sum)

def sumRightmost (x : Arr) (dim : ℕ) : Arr :=
  if dim = 1 then npSumLast x else x

def arrAdd : Arr → Arr → Arr
  | .r0 a, .r0 b => .r0 (a + b)
  | .r0 a, .r1 ys => .r1 (ys.map fun v => a + v)
  | .r0 a, .r2 yss => .r2 (yss.map fun row => row.map fun v => a + v)
  | .r1 xs, .r0 b => .r1 (xs.map fun v => v + b)
  | .r1 xs, .r1 ys => .r1 (List.zipWith (· + ·) xs ys)
  | .r1 xs, .r2 yss => .r2 (yss.map fun row => List.zipWith (· + ·) xs row)
  | .r2 xss, .r0 b => .r2 (xss.map fun row => row.map fun v => v + b)
  | .r2 xss, .r1 ys => .r2 (xss.map fun row => List.zipWith (· + ·) row ys)
  | .r2 xss, .r2 yss => .r2 (List.zipWith (List.zipWith (· + ·)) xss yss)

structure Part where
  eventDim : ℕ
  fwd : Arr → Arr
  ladj : Arr → Arr → Arr

def maxEventDim (parts : List Part) : ℕ :=
  (parts.map Part.eventDim).foldr max 0

def composeLadjGo (E : ℕ) : List Part → Arr → Arr → Arr → Arr
  | [], _x, _y, acc => acc
  | [p], x, y, acc => arrAdd acc (sumRightmost (p.ladj x y) (E - p.eventDim))
  | p :: q :: rest, x, y, acc =>
    composeLadjGo E (q :: rest) (p.fwd x) y
      (arrAdd acc (sumRightmost (p.ladj x (p.fwd x)) (E - p.eventDim)))

def composeLadj (parts : List Part) (x y : Arr) : Arr :=
  composeLadjGo (maxEventDim parts) parts x y (.r0 0)

/-- Modelled from the spec's words (section 4.3, ComposeTransform): a true
`k`-fold right-sum over trailing axes, so that each part's contribution is
"right-summed up from its own event dimension" to the maximum event
dimension, for every value of the difference. -/
def sumRightmostK (x : Arr) : ℕ → Arr
  | 0 => x
  | k + 1 => sumRightmostK (npSumLast x) k

/-- Modelled from the spec's words: the claimed accumulation in which each
part's own log-Jacobian contribution is right-summed over the trailing
`maxEventDim - part.eventDim` dimensions, intermediate values being the
successive forward images of `x`. -/
def specComposeLadjGo (E : ℕ) : List Part → Arr → Arr → Arr → Arr
  | [], _x, _y, acc => acc
  | [p], x, y, acc => arrAdd acc (sumRightmostK (p.ladj x y) (E - p.eventDim))
  | p :: q :: rest, x, y, acc =>
    specComposeLadjGo E (q :: rest) (p.fwd x) y
      (arrAdd acc (sumRightmostK (p.ladj x (p.fwd x)) (E - p.eventDim)))

def specComposeLadj (parts : List Part) (x y : Arr) : Arr :=
  specComposeLadjGo (maxEventDim parts) parts x y (.r0 0)

def cePart0 : Part := ⟨0, id, fun x _ => x⟩

def cePart2 : Part := ⟨2, id, fun _ _ => .r0 0⟩

def ceX : Arr := .r2 [[1, 2], [3, 4]]

/-- C3 counterexample: for a composition of a part of event dimension 0
(whose log-Jacobian is the input itself, as for `ExpTransform`) with a part
of event dimension 2, the code's accumulated log-Jacobian differs from the
claimed per-part right-summed accumulation, because `_sum_rightmost` leaves
a contribution with difference 2 completely unsummed. -/
theorem composeLadj_ne_spec :
    composeLadj [cePart0, cePart2] ceX ceX ≠ specComposeLadj [cePart0, cePart2] ceX ceX := by
  decide

theorem sumRightmost_eq_K (x : Arr) (k : ℕ) (hk : k ≤ 1) :
    sumRightmost x k = sumRightmostK x k := by
  interval_cases k
  · rfl
  · rfl

theorem composeLadjGo_eq_spec (E : ℕ) :
    ∀ ps : List Part, (∀ p ∈ ps, E - p.eventDim ≤ 1) →
      ∀ x y acc, composeLadjGo E ps x y acc = specComposeLadjGo E ps x y acc
  | [], _, _, _, _ => rfl
  | [p], h, x, y, acc => by
    rw [composeLadjGo, specComposeLadjGo,
      sumRightmost_eq_K _ _ (h p (List.mem_singleton_self p))]
  | p :: q :: rest, h, x, y, acc => by
    rw [composeLadjGo, specComposeLadjGo,
      sumRightmost_eq_K _ _ (h p (List.mem_cons_self p (q :: rest))),
      composeLadjGo_eq_spec E (q :: rest)
        (fun r hr => h r (List.mem_cons_of_mem p hr))]

/-- C3 amended: `ComposeTransform.log_abs_det_jacobian` accumulates each
part's contribution right-summed over the trailing
`maxEventDim - part.eventDim` dimensions, with intermediate values the
successive forward images of `x`, provided every part's difference is 0 or
1; for a difference of 2 or more `_sum_rightmost` leaves the contribution
unsummed, so the equality can fail. -/
theorem composeLadj_eq_spec (parts : List Part) (x y : Arr)
    (h : ∀ p ∈ parts, maxEventDim parts - p.eventDim ≤ 1) :
    composeLadj parts x y = specComposeLadj parts x y :=
  composeLadjGo_eq_spec (maxEventDim parts) parts h x y (.r0 0)

def ceW1 : Part := ⟨1, id, fun x _ => x⟩

/-- C3 witness: the amended statement evaluated on a concrete composition of
parts with event dimensions 0 and 1. -/
theorem composeLadj_eq_spec_witness :
    (∀ p ∈ [cePart0, ceW1], maxEventDim [cePart0, ceW1] - p.eventDim ≤ 1) ∧
      composeLadj [cePart0, ceW1] (.r1 [1, 2]) (.r1 [1, 2]) =
        specComposeLadj [cePart0, ceW1] (.r1 [1, 2]) (.r1 [1, 2]) :=
  ⟨by decide, composeLadj_eq_spec [cePart0, ceW1] (.r1 [1, 2]) (.r1 [1, 2]) (by decide)⟩

/-! ### AutoContinuous setup and local latent variables

Embedding of `AutoContinuous._setup_prototype`
(src/numpyro/infer/autoguide.py, lines 544-565).  A prototype trace is
the ordered list of its sites; a sample site records its name, its
`is_observed` flag, the element count of its (unconstrained) initial
value and its `cond_indep_stack` of plate frames; a plate site records
its `args`, the full size and the realized subsample size (the frame
recorded at a site inside the plate carries the subsample size, see
`AutoGuide._create_plates`).  After the super call, the method computes
`latent_dim` (raising `RuntimeError` when it is zero) and then walks
every frame of every unobserved sample site, raising `ValueError` when
the frame's size differs from `_prototype_frame_full_sizes[frame.name]`
(a missing key would be a `KeyError`). -/

structure Frame where
  name : String
  dim : ℤ
  size : ℕ
deriving DecidableEq, Repr

inductive Site where
  | sample (name : String) (isObserved : Bool) (numel : ℕ) (frames : List Frame)
  | plate (name : String) (fullSize : ℕ) (subsampleSize : ℕ)
deriving DecidableEq, Repr

def frameFullSizes (trace : List Site) : List (String × ℕ) :=
  trace.filterMap fun s => match s with
    | .plate n f _ => some (n, f)
    | _ => none

def latentNumel (trace : List Site) : ℕ :=
  (trace.map fun s => match s with
    | .sample _ false k _ => k
    | _ => 0).sum

def unobservedFrames (trace : List Site) : List Frame :=
  trace.foldr (fun s acc => match s with
    | .sample _ false _ frames => frames ++ acc
    | _ => acc) []

def localLatentMsg : String :=
  "AutoContinuous guide does not support local latent variables."

def checkFrames (fullSizes : List (String × ℕ)) : List Frame → Except String Unit
  | [] => .ok ()
  | fr :: rest =>
    match fullSizes.lookup fr.name with
    | none => .error ("KeyError: " ++ fr.name)
    | some fs => if fr.size ≠ fs then .error localLatentMsg else checkFrames fullSizes rest

def autoContinuousSetup (trace : List Site) : Except String Unit :=
  if latentNumel trace = 0 then
    .error "AutoContinuous found no latent variables; Use an empty guide instead"
  else checkFrames (frameFullSizes trace) (unobservedFrames trace)

def hasSubsampledPlate (trace : List Site) : Bool :=
  trace.any fun s => match s with
    | .plate _ f sub => sub < f
    | _ => false

def ceTrace : List Site :=
  [.sample "theta" false 1 [], .plate "N" 10 5,
    .sample "obs" true 3 [⟨"N", -1, 5⟩]]

/-- C4 counterexample: a model with a global latent site and a subsampled
plate (full size 10, subsample size 5) containing only an observed site
completes `AutoContinuous._setup_prototype` without any error, contradicting
the claim that every model containing a subsampled plate is rejected. -/
theorem autoContinuousSetup_subsampled_ok :
    hasSubsampledPlate ceTrace = true ∧ autoContinuousSetup ceTrace = .ok () :=
  ⟨rfl, rfl⟩

theorem checkFrames_error_iff (fullSizes : List (String × ℕ)) :
    ∀ l : List Frame, (∀ fr ∈ l, (fullSizes.lookup fr.name).isSome) →
      (checkFrames fullSizes l = .error localLatentMsg ↔
        ∃ fr ∈ l, fullSizes.lookup fr.name ≠ some fr.size) := by
  intro l
  induction l with
  | nil =>
    intro _
    simp [checkFrames]
  | cons fr rest ih =>
    intro hkeys
    have hfr := hkeys fr (List.mem_cons_self fr rest)
    rcases hsome : fullSizes.lookup fr.name with _ | v
    · rw [hsome] at hfr
      exact absurd hfr (by simp)
    · have hred : checkFrames fullSizes (fr :: rest) =
          if fr.size ≠ v then Except.error localLatentMsg
          else checkFrames fullSizes rest := by
        rw [checkFrames, hsome]
      rw [hred]
      by_cases hv : fr.size ≠ v
      · refine iff_of_true (by rw [if_pos hv]) ⟨fr, List.mem_cons_self fr rest, ?_⟩
        rw [hsome]
        exact fun hc => hv (Option.some_injective _ hc).symm
      · push_neg at hv
        rw [if_neg (by omega)]
        rw [ih fun r hr => hkeys r (List.mem_cons_of_mem fr hr)]
        constructor
        · rintro ⟨r, hr, hne⟩
          exact ⟨r, List.mem_cons_of_mem fr hr, hne⟩
        · rintro ⟨r, hr, hne⟩
          rcases List.mem_cons.mp hr with rfl | hr
          · rw [hsome, hv] at hne
            exact absurd rfl hne
          · exact ⟨r, hr, hne⟩

/-- C4 amended: `AutoContinuous._setup_prototype` raises the
"does not support local latent variables" error if and only if some
UNOBSERVED sample site carries a plate frame whose realized size differs
from the plate's recorded full size; a subsampled plate whose interior
contains no unobserved sample site does not trigger the error (given the
setup reaches the frame check: at least one latent element exists and every
frame name has a recorded full size). -/
theorem autoContinuousSetup_local_error_iff (trace : List Site)
    (hlat : latentNumel trace ≠ 0)
    (hkeys : ∀ fr ∈ unobservedFrames trace,
      ((frameFullSizes trace).lookup fr.name).isSome) :
    autoContinuousSetup trace = .error localLatentMsg ↔
      ∃ fr ∈ unobservedFrames trace,
        (frameFullSizes trace).lookup fr.name ≠ some fr.size := by
  rw [autoContinuousSetup, if_neg hlat]
  exact checkFrames_error_iff (frameFullSizes trace) (unobservedFrames trace) hkeys

def ceTraceLocal : List Site :=
  [.sample "tau" false 2 [⟨"N", -1, 5⟩], .plate "N" 10 5]

/-- C4 witness: the amended characterization evaluated on a concrete trace
whose unobserved sample site sits inside a subsampled plate. -/
theorem autoContinuousSetup_local_error_iff_witness :
    (latentNumel ceTraceLocal ≠ 0 ∧
      ∀ fr ∈ unobservedFrames ceTraceLocal,
        ((frameFullSizes ceTraceLocal).lookup fr.name).isSome) ∧
      (autoContinuousSetup ceTraceLocal = .error localLatentMsg ↔
        ∃ fr ∈ unobservedFrames ceTraceLocal,
          (frameFullSizes ceTraceLocal).lookup fr.name ≠ some fr.size) :=
  ⟨⟨by decide, by decide⟩,
    autoContinuousSetup_local_error_iff ceTraceLocal (by decide) (by decide)⟩

end NumpyroSpec
